import Mathlib

/-!
# Verification of the nodejsPdfServer job queue and sequential worker

Shallow embedding of `src/server.js`: the SQLite-backed job table, the
`POST /runPdf` enqueue handler, the sequential background worker
(`processNextJob`), the completion updates, the startup schema migration,
and the `GET /job/:id` handler.  Timestamps (ISO-8601 strings produced by
`new Date().toISOString()`) are modelled as natural numbers ordered as the
wall clock is; the page execution performed by the external browser engine
is modelled as an event that reports success or failure, as the spec treats
it as a black box.
-/

namespace PdfServer

/-- Job states, exactly the three strings `'Waiting'`, `'Running'`,
`'Executed'` used in `server.js`. -/
inductive JobState
  | waiting
  | running
  | executed
deriving DecidableEq, Repr

/-- One row of the `jobs` table (`CREATE TABLE` at `server.js:35-44` plus the
migrated `error` and `success` columns).  `success` is the `INTEGER DEFAULT 0`
column read as a boolean; `error` is the nullable `TEXT` column. -/
structure Job where
  id : Nat
  url : String
  state : JobState
  requestedAt : Nat
  startedAt : Option Nat := none
  finishedAt : Option Nat := none
  success : Bool := false
  error : Option String := none
deriving DecidableEq, Repr

/-- The mutable server state: the `jobs` table rows in insertion order, the
next AUTOINCREMENT rowid, and the worker's in-flight job.  `currentJob = some j`
corresponds to `isProcessing = true` with the local `jobId = j` held by the
tick that claimed the job (`server.js:75,95-96`); `currentJob = none` is
`isProcessing = false`. -/
structure ServerState where
  jobs : List Job
  nextId : Nat
  currentJob : Option Nat
deriving DecidableEq, Repr

/-- Fresh database: empty table, AUTOINCREMENT starts at 1, worker idle. -/
def initState : ServerState :=
  { jobs := [], nextId := 1, currentJob := none }

/-- `SELECT * FROM jobs WHERE id = ?` followed by `.get` (first row). -/
def findById (s : ServerState) (jid : Nat) : Option Job :=
  s.jobs.find? (fun j => j.id == jid)

/-- `UPDATE jobs SET ... WHERE id = ?`: apply `f` to every row whose id
matches (ids are unique in reachable states, so at most one row changes). -/
def updateJob (jobs : List Job) (jid : Nat) (f : Job → Job) : List Job :=
  jobs.map (fun j => if j.id = jid then f j else j)

/-- `SELECT * FROM jobs WHERE state = 'Waiting' ORDER BY id ASC LIMIT 1`
(`server.js:86-87`): the Waiting row with the smallest id, if any. -/
def selectOldestWaiting : List Job → Option Job
  | [] => none
  | j :: rest =>
    match selectOldestWaiting rest with
    | none => if j.state = JobState.waiting then some j else none
    | some k =>
      if j.state = JobState.waiting then
        if j.id ≤ k.id then some j else some k
      else some k

/-- Modelled from the spec: the WHATWG `URL` constructor used by
`new URL(url)` at `server.js:307` is a platform built-in, not repository
code.  This models its accept/reject behaviour on absolute URLs: the input
must start with a scheme (an ASCII letter followed by letters, digits,
`+`, `-`, `.`) terminated by `:`.  For the special network schemes
(`http`, `https`, `ws`, `wss`, `ftp`) a nonempty, whitespace-free host must
follow (any run of slashes before it is tolerated, as WHATWG does); every
other scheme (`file:`, `data:`, `javascript:`, ...) accepts any remainder,
matching the constructor's opaque-path handling. -/
def isAsciiAlpha (c : Char) : Bool :=
  (Char.ofNat 97 ≤ c && c ≤ Char.ofNat 122) || (Char.ofNat 65 ≤ c && c ≤ Char.ofNat 90)

/-- Characters allowed after the first in a URL scheme. -/
def isSchemeChar (c : Char) : Bool :=
  isAsciiAlpha c || c.isDigit || c = Char.ofNat 43 || c = Char.ofNat 45 || c = Char.ofNat 46

/-- Split `url` into scheme (before the first `:`) and remainder, when the
scheme is well-formed. -/
def splitScheme (url : String) : Option (List Char × List Char) :=
  match url.data with
  | [] => none
  | c :: _ =>
    if isAsciiAlpha c then
      let scheme := url.data.takeWhile isSchemeChar
      match url.data.drop scheme.length with
      | d :: rest => if d = Char.ofNat 58 then some (scheme, rest) else none
      | [] => none
    else none

/-- The special network schemes of the WHATWG standard that require a host
(`file` is special too but tolerates an empty host, so it is handled with
the opaque schemes here). -/
def specialSchemes : List String :=
  ["http", "https", "ws", "wss", "ftp"]

/-- Host characters: anything up to a delimiter, rejecting whitespace. -/
def hostOf (rest : List Char) : List Char :=
  (rest.dropWhile (fun c => c = Char.ofNat 47)).takeWhile
    (fun c => !(c = Char.ofNat 47 || c = Char.ofNat 63 || c = Char.ofNat 35 || c = Char.ofNat 58))

/-- Modelled from the spec: whether `new URL(url)` succeeds (parses as an
absolute URL).  See `splitScheme` for the simplifications taken. -/
def parsesAsAbsoluteURL (url : String) : Bool :=
  match splitScheme url with
  | none => false
  | some (scheme, rest) =>
    let schemeStr := String.mk (scheme.map Char.toLower)
    if schemeStr ∈ specialSchemes then
      let host := hostOf rest
      decide (host ≠ []) && host.all (fun c => !c.isWhitespace)
    else
      true

/-- Result of the `POST /runPdf` handler (`server.js:294-343`): either the
success payload's `jobId`, or the 400 validation message.  The handler's 500
branch fires only when the store itself throws; the in-memory table never
does, so it has no constructor here. -/
inductive RunPdfResult
  | ok (jobId : Nat)
  | badRequest (msg : String)
deriving DecidableEq, Repr

/-- `POST /runPdf` (`server.js:294-343`): reject a missing or falsy `url`
(`!url`, which for strings rejects exactly `""`), reject a `url` the URL
constructor cannot parse, otherwise `INSERT INTO jobs (url, state,
requestedAt) VALUES (?, 'Waiting', ?)` and answer with the new rowid. -/
def runPdf (s : ServerState) (body : Option String) (t : Nat) :
    ServerState × RunPdfResult :=
  match body with
  | none => (s, RunPdfResult.badRequest "URL parameter is required")
  | some url =>
    if url = "" then (s, RunPdfResult.badRequest "URL parameter is required")
    else if parsesAsAbsoluteURL url then
      let jid := s.nextId
      ({ s with
          jobs := s.jobs ++ [{ id := jid, url := url, state := JobState.waiting,
                               requestedAt := t }],
          nextId := jid + 1 },
       RunPdfResult.ok jid)
    else (s, RunPdfResult.badRequest "Invalid URL format")

/-- One synchronous tick of `processNextJob` up to its first `await`
(`server.js:80-102`): return untouched if `isProcessing`; otherwise claim
the oldest Waiting job, set `isProcessing`, and
`UPDATE jobs SET state = 'Running', startedAt = ?`.  The second component
is the id of the job claimed by this tick, if any. -/
def processTick (s : ServerState) (t : Nat) : ServerState × Option Nat :=
  match s.currentJob with
  | some _ => (s, none)
  | none =>
    match selectOldestWaiting s.jobs with
    | none => (s, none)
    | some job =>
      ({ s with
          currentJob := some job.id,
          jobs := updateJob s.jobs job.id
            (fun j => { j with state := JobState.running, startedAt := some t }) },
       some job.id)

/-- The diagnostic text stored on failure
(`` `${error.message}\n\nStack trace:\n${error.stack}` ``, `server.js:274`). -/
def mkErrorMessage (msg stack : String) : String :=
  msg ++ "\n\nStack trace:\n" ++ stack

/-- The row update run at completion (`server.js:254-257` on success,
`server.js:272-276` on failure).  The success update does not mention the
`error` column, exactly as the SQL does. -/
def completeRow (ok : Bool) (msg stack : String) (t : Nat) (j : Job) : Job :=
  if ok then
    { j with state := JobState.executed, finishedAt := some t, success := true }
  else
    { j with state := JobState.executed, finishedAt := some t, success := false,
             error := some (mkErrorMessage msg stack) }

/-- Completion of the in-flight execution (`server.js:254-281`): on success
`UPDATE jobs SET state='Executed', finishedAt=?, success=1`; on failure
`UPDATE jobs SET state='Executed', finishedAt=?, success=0, error=?`.
Either way the `finally` block clears `isProcessing`.  With no in-flight
job there is no pending continuation, so nothing happens. -/
def completeJob (s : ServerState) (ok : Bool) (msg stack : String) (t : Nat) :
    ServerState :=
  match s.currentJob with
  | none => s
  | some jid =>
    { s with
      currentJob := none,
      jobs := updateJob s.jobs jid (completeRow ok msg stack t) }

/-- The observable events at which the cooperative scheduler can interleave:
an enqueue request, a worker tick, and the end of a page execution (the
browser's report, success or failure with diagnostics).  Each carries the
wall-clock time at which it runs. -/
inductive Event
  | enq (body : Option String) (t : Nat)
  | tick (t : Nat)
  | finish (ok : Bool) (msg stack : String) (t : Nat)
deriving DecidableEq, Repr

/-- Wall-clock time of an event. -/
def eventTime : Event → Nat
  | Event.enq _ t => t
  | Event.tick t => t
  | Event.finish _ _ _ t => t

/-- Effect of one event on the server state. -/
def stepEv (s : ServerState) : Event → ServerState
  | Event.enq body t => (runPdf s body t).1
  | Event.tick t => (processTick s t).1
  | Event.finish ok msg stack t => completeJob s ok msg stack t

/-- Run a trace of events from a state. -/
def run (s : ServerState) : List Event → ServerState
  | [] => s
  | e :: es => run (stepEv s e) es

/-- Event times are non-decreasing along the trace, starting at `b` (the
wall clock only moves forward). -/
def timesMono : Nat → List Event → Prop
  | _, [] => True
  | b, e :: es => b ≤ eventTime e ∧ timesMono (eventTime e) es

instance timesMono.decide : ∀ b tr, Decidable (timesMono b tr)
  | _, [] => Decidable.isTrue trivial
  | b, e :: es =>
    @instDecidableAnd _ _ (Nat.decLe b (eventTime e)) (timesMono.decide (eventTime e) es)

/-- Hexadecimal digit test, as JavaScript `parseInt` accepts after `0x`. -/
def isHexDigit (c : Char) : Bool :=
  c.isDigit || (Char.ofNat 97 ≤ c && c ≤ Char.ofNat 102) ||
    (Char.ofNat 65 ≤ c && c ≤ Char.ofNat 70)

/-- Numeric value of a hexadecimal digit. -/
def hexDigitToNat (c : Char) : Nat :=
  if c.isDigit then c.toNat - 48
  else if Char.ofNat 97 ≤ c then c.toNat - 87
  else c.toNat - 55

/-- Longest decimal-digit run at the front of `cs`, as a signed value. -/
def jsParseIntDec (sign : Int) (cs : List Char) : Option Int :=
  let ds := cs.takeWhile Char.isDigit
  if ds.isEmpty then none
  else some (sign * Int.ofNat (ds.foldl (fun a c => a * 10 + (c.toNat - 48)) 0))

/-- After the optional sign: `0x`/`0X` switches to hexadecimal, otherwise the
longest decimal-digit run is taken; no digits at all is `NaN` (`none`). -/
def jsParseIntCore (sign : Int) (cs : List Char) : Option Int :=
  match cs with
  | c0 :: c1 :: rest =>
    if c0 = Char.ofNat 48 && (c1 = Char.ofNat 120 || c1 = Char.ofNat 88) then
      let ds := rest.takeWhile isHexDigit
      if ds.isEmpty then none
      else some (sign * Int.ofNat (ds.foldl (fun a c => a * 16 + hexDigitToNat c) 0))
    else jsParseIntDec sign cs
  | _ => jsParseIntDec sign cs

/-- Modelled from the spec: JavaScript's `parseInt(string)` (a platform
built-in, not repository code) as used at `server.js:372`.  Leading
whitespace is skipped, an optional sign is read, then the longest numeric
run is parsed; the result is `NaN` (`none`) only when no digit follows, so
a string such as `"12abc"` parses as `12`. -/
def jsParseInt (s : String) : Option Int :=
  match s.data.dropWhile Char.isWhitespace with
  | [] => none
  | c :: rest =>
    if c = Char.ofNat 45 then jsParseIntCore (-1) rest
    else if c = Char.ofNat 43 then jsParseIntCore 1 rest
    else jsParseIntCore 1 (c :: rest)

/-- Result of the `GET /job/:id` handler (`server.js:370-401`).  The 500
branch fires only when the store throws; the in-memory table never does,
so it has no constructor here. -/
inductive GetJobResult
  | found (j : Job)
  | notFound
  | invalidId
deriving DecidableEq, Repr

/-- HTTP status of a `GET /job/:id` response. -/
def getJobStatus : GetJobResult → Nat
  | GetJobResult.found _ => 200
  | GetJobResult.notFound => 404
  | GetJobResult.invalidId => 400

/-- `GET /job/:id` (`server.js:370-401`): `parseInt` the path parameter,
answer 400 on `NaN`, otherwise `SELECT * FROM jobs WHERE id = ?` and answer
404 when no row matches, else the row. -/
def getJobHandler (s : ServerState) (idStr : String) : GetJobResult :=
  match jsParseInt idStr with
  | none => GetJobResult.invalidId
  | some i =>
    match s.jobs.find? (fun j => (j.id : Int) == i) with
    | none => GetJobResult.notFound
    | some j => GetJobResult.found j

/-- Environment for the startup schema migration (`server.js:46-68`): the
column names reported by `PRAGMA table_info(jobs)`, and whether that query
and each `ALTER TABLE ... ADD COLUMN` call succeed (better-sqlite3 raises on
failure, which the `catch` turns into `process.exit(1)`). -/
structure MigrationEnv where
  cols : List String
  pragmaOk : Bool
  alterErrorOk : Bool
  alterSuccessOk : Bool
deriving DecidableEq, Repr

/-- Outcome of startup: serve with the given schema, or abort the process. -/
inductive StartupOutcome
  | proceed (cols : List String)
  | fatalExit (code : Nat)
deriving DecidableEq, Repr

/-- The migration block (`server.js:46-68`): read the column list; add the
`error` column when missing, then the `success` column when missing (both
membership checks are against the list read at the top); any raised error
reaches the `catch`, which calls `process.exit(1)`. -/
def runMigration (env : MigrationEnv) : StartupOutcome :=
  if env.pragmaOk then
    let afterError : Option (List String) :=
      if "error" ∈ env.cols then some env.cols
      else if env.alterErrorOk then some (env.cols ++ ["error"]) else none
    match afterError with
    | none => StartupOutcome.fatalExit 1
    | some cols1 =>
      let afterSuccess : Option (List String) :=
        if "success" ∈ env.cols then some cols1
        else if env.alterSuccessOk then some (cols1 ++ ["success"]) else none
      match afterSuccess with
      | none => StartupOutcome.fatalExit 1
      | some cols2 => StartupOutcome.proceed cols2
  else StartupOutcome.fatalExit 1

/-- Per-job timestamp ordering: `requestedAt ≤ startedAt ≤ finishedAt`,
null fields skipped. -/
def tsOrdered (j : Job) : Prop :=
  (∀ a, j.startedAt = some a → j.requestedAt ≤ a) ∧
  (∀ b, j.finishedAt = some b → j.requestedAt ≤ b) ∧
  (∀ a b, j.startedAt = some a → j.finishedAt = some b → a ≤ b)

/-- The inductive system invariant of the queue and worker. -/
structure Inv (s : ServerState) : Prop where
  sorted : s.jobs.Pairwise (fun a b => a.id < b.id)
  idsLt : ∀ j ∈ s.jobs, j.id < s.nextId
  curRunning : ∀ jid, s.currentJob = some jid →
    ∃ j, j ∈ s.jobs ∧ j.id = jid ∧ j.state = JobState.running
  runningCur : ∀ j ∈ s.jobs, j.state = JobState.running → s.currentJob = some j.id
  waitingFields : ∀ j ∈ s.jobs, j.state = JobState.waiting →
    j.startedAt = none ∧ j.finishedAt = none ∧ j.error = none ∧ j.success = false
  runningFields : ∀ j ∈ s.jobs, j.state = JobState.running →
    j.startedAt ≠ none ∧ j.finishedAt = none ∧ j.error = none ∧ j.success = false
  executedFields : ∀ j ∈ s.jobs, j.state = JobState.executed →
    j.startedAt ≠ none ∧ j.finishedAt ≠ none
  fifo : ∀ j1 ∈ s.jobs, ∀ j2 ∈ s.jobs, j1.id < j2.id →
    j2.state ≠ JobState.waiting → j1.state ≠ JobState.waiting

/-- Two rows of an id-sorted table with the same id are the same row. -/
theorem eq_of_id_eq {l : List Job} (hp : l.Pairwise (fun a b => a.id < b.id))
    {a b : Job} (ha : a ∈ l) (hb : b ∈ l) (hid : a.id = b.id) : a = b := by
  induction l with
  | nil => cases ha
  | cons hd tl ih =>
    rcases List.pairwise_cons.mp hp with ⟨hhd, htl⟩
    rcases List.mem_cons.mp ha with ha' | ha'
    · rcases List.mem_cons.mp hb with hb' | hb'
      · rw [ha', hb']
      · subst ha'
        exact absurd hid (Nat.ne_of_lt (hhd b hb'))
    · rcases List.mem_cons.mp hb with hb' | hb'
      · subst hb'
        exact absurd hid.symm (Nat.ne_of_lt (hhd a ha'))
      · exact ih htl ha' hb'

/-- When `selectOldestWaiting` returns no row, no row is Waiting. -/
theorem selectOldestWaiting_none {l : List Job}
    (h : selectOldestWaiting l = none) :
    ∀ j ∈ l, j.state ≠ JobState.waiting := by
  induction l with
  | nil => intro j hj; cases hj
  | cons hd tl ih =>
    intro j hj
    rcases List.mem_cons.mp hj with rfl | hj
    · intro hw
      cases hrest : selectOldestWaiting tl with
      | none => simp [selectOldestWaiting, hrest, hw] at h
      | some k =>
        simp only [selectOldestWaiting, hrest, hw, if_true] at h
        split at h <;> cases h
    · cases hrest : selectOldestWaiting tl with
      | none => exact ih hrest j hj
      | some k =>
        exfalso
        simp only [selectOldestWaiting, hrest] at h
        split at h
        · split at h <;> cases h
        · cases h

/-- The row `selectOldestWaiting` returns is a Waiting member of the table
with the least id among Waiting rows (the `ORDER BY id ASC LIMIT 1`). -/
theorem selectOldestWaiting_spec {l : List Job} {j : Job}
    (h : selectOldestWaiting l = some j) :
    j ∈ l ∧ j.state = JobState.waiting ∧
      ∀ j' ∈ l, j'.state = JobState.waiting → j.id ≤ j'.id := by
  induction l generalizing j with
  | nil => cases h
  | cons hd tl ih =>
    cases hrest : selectOldestWaiting tl with
    | none =>
      have hnw := selectOldestWaiting_none hrest
      by_cases hw : hd.state = JobState.waiting
      · simp only [selectOldestWaiting, hrest, hw, if_true] at h
        cases h
        refine ⟨List.mem_cons_self _ _, hw, ?_⟩
        intro j' hj' hj'w
        rcases List.mem_cons.mp hj' with rfl | hj'
        · exact Nat.le_refl _
        · exact absurd hj'w (hnw j' hj')
      · simp [selectOldestWaiting, hrest, hw] at h
    | some k =>
      rcases ih hrest with ⟨hkmem, hkw, hkmin⟩
      by_cases hw : hd.state = JobState.waiting
      · by_cases hle : hd.id ≤ k.id
        · simp only [selectOldestWaiting, hrest, hw, if_true, hle] at h
          cases h
          refine ⟨List.mem_cons_self _ _, hw, ?_⟩
          intro j' hj' hj'w
          rcases List.mem_cons.mp hj' with rfl | hj'
          · exact Nat.le_refl _
          · exact Nat.le_trans hle (hkmin j' hj' hj'w)
        · simp only [selectOldestWaiting, hrest, hw, if_true, hle, if_false] at h
          cases h
          refine ⟨List.mem_cons_of_mem _ hkmem, hkw, ?_⟩
          intro j' hj' hj'w
          rcases List.mem_cons.mp hj' with rfl | hj'
          · exact Nat.le_of_lt (Nat.lt_of_not_le hle)
          · exact hkmin j' hj' hj'w
      · simp only [selectOldestWaiting, hrest, hw, if_false] at h
        cases h
        refine ⟨List.mem_cons_of_mem _ hkmem, hkw, ?_⟩
        intro j' hj' hj'w
        rcases List.mem_cons.mp hj' with rfl | hj'
        · exact absurd hj'w hw
        · exact hkmin j' hj' hj'w

/-- `UPDATE ... WHERE id = ?` touches no row's id when `g` preserves it. -/
theorem updateJob_id_eq {k : Nat} {g : Job → Job} (hid : ∀ x, (g x).id = x.id)
    (x : Job) : (if x.id = k then g x else x).id = x.id := by
  split
  · exact hid x
  · rfl

/-- Membership in an updated table. -/
theorem mem_updateJob {l : List Job} {k : Nat} {g : Job → Job} {j' : Job} :
    j' ∈ updateJob l k g ↔ ∃ x ∈ l, (if x.id = k then g x else x) = j' := by
  simp [updateJob, List.mem_map]

/-- An id-preserving update keeps the table sorted by id. -/
theorem updateJob_pairwise {l : List Job} {k : Nat} {g : Job → Job}
    (hid : ∀ x, (g x).id = x.id) (h : l.Pairwise (fun a b => a.id < b.id)) :
    (updateJob l k g).Pairwise (fun a b => a.id < b.id) := by
  rw [updateJob, List.pairwise_map]
  refine h.imp ?_
  intro a b hab
  rw [updateJob_id_eq hid a, updateJob_id_eq hid b]
  exact hab

/-- The state built by a successful `INSERT` of `POST /runPdf`. -/
def enqueueState (s : ServerState) (url : String) (t : Nat) : ServerState :=
  { s with
      jobs := s.jobs ++ [{ id := s.nextId, url := url, state := JobState.waiting,
                           requestedAt := t }],
      nextId := s.nextId + 1 }

/-- Inserting a fresh Waiting row preserves the system invariant. -/
theorem inv_enqueue {s : ServerState} (hs : Inv s) (url : String) (t : Nat) :
    Inv (enqueueState s url t) := by
  refine ⟨?_, ?_, ?_, ?_, ?_, ?_, ?_, ?_⟩
  · rw [enqueueState]
    simp only [List.pairwise_append]
    refine ⟨hs.sorted, by simp, ?_⟩
    intro a ha b hb
    simp only [List.mem_singleton] at hb
    subst hb
    exact hs.idsLt a ha
  · intro j hj
    rcases List.mem_append.mp hj with hj | hj
    · exact Nat.lt_trans (hs.idsLt j hj) (Nat.lt_succ_self _)
    · simp only [List.mem_singleton] at hj
      subst hj
      exact Nat.lt_succ_self _
  · intro jid hcur
    rcases hs.curRunning jid hcur with ⟨j, hj, hjid, hjr⟩
    exact ⟨j, List.mem_append_left _ hj, hjid, hjr⟩
  · intro j hj hr
    rcases List.mem_append.mp hj with hj | hj
    · exact hs.runningCur j hj hr
    · simp only [List.mem_singleton] at hj
      subst hj
      simp at hr
  · intro j hj hw
    rcases List.mem_append.mp hj with hj | hj
    · exact hs.waitingFields j hj hw
    · simp only [List.mem_singleton] at hj
      subst hj
      exact ⟨rfl, rfl, rfl, rfl⟩
  · intro j hj hr
    rcases List.mem_append.mp hj with hj | hj
    · exact hs.runningFields j hj hr
    · simp only [List.mem_singleton] at hj
      subst hj
      simp at hr
  · intro j hj hx
    rcases List.mem_append.mp hj with hj | hj
    · exact hs.executedFields j hj hx
    · simp only [List.mem_singleton] at hj
      subst hj
      simp at hx
  · intro j1 h1 j2 h2 hlt h2w
    rcases List.mem_append.mp h1 with h1 | h1 <;>
      rcases List.mem_append.mp h2 with h2 | h2
    · exact hs.fifo j1 h1 j2 h2 hlt h2w
    · simp only [List.mem_singleton] at h2
      subst h2
      exact absurd rfl h2w
    · simp only [List.mem_singleton] at h1
      subst h1
      exact absurd (Nat.lt_trans hlt (hs.idsLt j2 h2)) (Nat.lt_irrefl _)
    · simp only [List.mem_singleton] at h1 h2
      subst h1
      subst h2
      exact absurd hlt (Nat.lt_irrefl _)

/-- The state built by the claim phase of `processNextJob`. -/
def claimState (s : ServerState) (w : Job) (t : Nat) : ServerState :=
  { s with
      currentJob := some w.id,
      jobs := updateJob s.jobs w.id
        (fun j => { j with state := JobState.running, startedAt := some t }) }

/-- Claiming the oldest Waiting job preserves the system invariant. -/
theorem inv_claim {s : ServerState} {w : Job} (hs : Inv s)
    (hc : s.currentJob = none) (hw : selectOldestWaiting s.jobs = some w)
    (t : Nat) : Inv (claimState s w t) := by
  rcases selectOldestWaiting_spec hw with ⟨hwmem, hww, hwmin⟩
  have hid : ∀ x : Job,
      ({ x with state := JobState.running, startedAt := some t } : Job).id = x.id :=
    fun _ => rfl
  have uniq : ∀ {a b : Job}, a ∈ s.jobs → b ∈ s.jobs → a.id = b.id → a = b :=
    fun ha hb => eq_of_id_eq hs.sorted ha hb
  refine ⟨?_, ?_, ?_, ?_, ?_, ?_, ?_, ?_⟩
  · exact updateJob_pairwise hid hs.sorted
  · intro j' hj'
    rcases mem_updateJob.mp hj' with ⟨x, hx, rfl⟩
    rw [updateJob_id_eq hid x]
    exact hs.idsLt x hx
  · intro jid hcur
    simp only [claimState, Option.some.injEq] at hcur
    refine ⟨{ w with state := JobState.running, startedAt := some t }, ?_, ?_, rfl⟩
    · refine mem_updateJob.mpr ⟨w, hwmem, ?_⟩
      rw [if_pos rfl]
    · simpa using hcur
  · intro j' hj' hr'
    rcases mem_updateJob.mp hj' with ⟨x, hx, rfl⟩
    by_cases hxk : x.id = w.id
    · show (claimState s w t).currentJob = _
      rw [claimState]
      have hxid := @updateJob_id_eq w.id _ hid x
      rw [hxid, hxk]
    · rw [if_neg hxk] at hr' ⊢
      have := hs.runningCur x hx hr'
      rw [hc] at this
      cases this
  · intro j' hj' hw'
    rcases mem_updateJob.mp hj' with ⟨x, hx, rfl⟩
    by_cases hxk : x.id = w.id
    · rw [if_pos hxk] at hw'
      simp at hw'
    · rw [if_neg hxk] at hw' ⊢
      exact hs.waitingFields x hx hw'
  · intro j' hj' hr'
    rcases mem_updateJob.mp hj' with ⟨x, hx, rfl⟩
    by_cases hxk : x.id = w.id
    · have hxw : x = w := uniq hx hwmem hxk
      subst hxw
      rw [if_pos hxk]
      rcases hs.waitingFields x hx hww with ⟨_, hfin, herr, hsuc⟩
      exact ⟨by simp, hfin, herr, hsuc⟩
    · rw [if_neg hxk] at hr'
      have := hs.runningCur x hx hr'
      rw [hc] at this
      cases this
  · intro j' hj' hx'
    rcases mem_updateJob.mp hj' with ⟨x, hx, rfl⟩
    by_cases hxk : x.id = w.id
    · rw [if_pos hxk] at hx'
      simp at hx'
    · rw [if_neg hxk] at hx' ⊢
      exact hs.executedFields x hx hx'
  · intro j1' h1 j2' h2 hlt h2w
    rcases mem_updateJob.mp h1 with ⟨x1, hx1, rfl⟩
    rcases mem_updateJob.mp h2 with ⟨x2, hx2, rfl⟩
    rw [updateJob_id_eq hid x1, updateJob_id_eq hid x2] at hlt
    by_cases h1k : x1.id = w.id
    · rw [if_pos h1k]
      simp
    · rw [if_neg h1k]
      by_cases h2k : x2.id = w.id
      · have hx2w : x2 = w := uniq hx2 hwmem h2k
        subst hx2w
        intro hx1w
        exact absurd hlt (Nat.not_lt.mpr (hwmin x1 hx1 hx1w))
      · rw [if_neg h2k] at h2w
        exact hs.fifo x1 hx1 x2 hx2 hlt h2w

theorem completeRow_id (ok : Bool) (msg stack : String) (t : Nat) (x : Job) :
    (completeRow ok msg stack t x).id = x.id := by
  cases ok <;> simp [completeRow]

theorem completeRow_state (ok : Bool) (msg stack : String) (t : Nat) (x : Job) :
    (completeRow ok msg stack t x).state = JobState.executed := by
  cases ok <;> simp [completeRow]

theorem completeRow_fin (ok : Bool) (msg stack : String) (t : Nat) (x : Job) :
    (completeRow ok msg stack t x).finishedAt = some t := by
  cases ok <;> simp [completeRow]

theorem completeRow_started (ok : Bool) (msg stack : String) (t : Nat) (x : Job) :
    (completeRow ok msg stack t x).startedAt = x.startedAt := by
  cases ok <;> simp [completeRow]

theorem completeRow_url (ok : Bool) (msg stack : String) (t : Nat) (x : Job) :
    (completeRow ok msg stack t x).url = x.url := by
  cases ok <;> simp [completeRow]

theorem completeRow_req (ok : Bool) (msg stack : String) (t : Nat) (x : Job) :
    (completeRow ok msg stack t x).requestedAt = x.requestedAt := by
  cases ok <;> simp [completeRow]

/-- The state built by the completion phase of `processNextJob`. -/
def completeState (s : ServerState) (jid : Nat) (ok : Bool) (msg stack : String)
    (t : Nat) : ServerState :=
  { s with
      currentJob := none,
      jobs := updateJob s.jobs jid (completeRow ok msg stack t) }

/-- Recording the outcome of the in-flight job preserves the invariant. -/
theorem inv_complete {s : ServerState} {jid : Nat} (hs : Inv s)
    (hc : s.currentJob = some jid) (ok : Bool) (msg stack : String) (t : Nat) :
    Inv (completeState s jid ok msg stack t) := by
  rcases hs.curRunning jid hc with ⟨r, hrmem, hrid, hrrun⟩
  have hid : ∀ x : Job, (completeRow ok msg stack t x).id = x.id :=
    completeRow_id ok msg stack t
  have uniq : ∀ {a b : Job}, a ∈ s.jobs → b ∈ s.jobs → a.id = b.id → a = b :=
    fun ha hb => eq_of_id_eq hs.sorted ha hb
  refine ⟨?_, ?_, ?_, ?_, ?_, ?_, ?_, ?_⟩
  · exact updateJob_pairwise hid hs.sorted
  · intro j' hj'
    rcases mem_updateJob.mp hj' with ⟨x, hx, rfl⟩
    rw [updateJob_id_eq hid x]
    exact hs.idsLt x hx
  · intro jid' hcur
    simp [completeState] at hcur
  · intro j' hj' hr'
    rcases mem_updateJob.mp hj' with ⟨x, hx, rfl⟩
    by_cases hxk : x.id = jid
    · rw [if_pos hxk, completeRow_state] at hr'
      cases hr'
    · rw [if_neg hxk] at hr'
      have := hs.runningCur x hx hr'
      rw [hc] at this
      exact absurd (Option.some.inj this).symm hxk
  · intro j' hj' hw'
    rcases mem_updateJob.mp hj' with ⟨x, hx, rfl⟩
    by_cases hxk : x.id = jid
    · rw [if_pos hxk, completeRow_state] at hw'
      cases hw'
    · rw [if_neg hxk] at hw' ⊢
      exact hs.waitingFields x hx hw'
  · intro j' hj' hr'
    rcases mem_updateJob.mp hj' with ⟨x, hx, rfl⟩
    by_cases hxk : x.id = jid
    · rw [if_pos hxk, completeRow_state] at hr'
      cases hr'
    · rw [if_neg hxk] at hr'
      have := hs.runningCur x hx hr'
      rw [hc] at this
      exact absurd (Option.some.inj this).symm hxk
  · intro j' hj' hx'
    rcases mem_updateJob.mp hj' with ⟨x, hx, rfl⟩
    by_cases hxk : x.id = jid
    · have hxr : x = r := uniq hx hrmem (hxk.trans hrid.symm)
      subst hxr
      rw [if_pos hxk]
      rw [completeRow_started, completeRow_fin]
      exact ⟨(hs.runningFields x hx hrrun).1, by simp⟩
    · rw [if_neg hxk] at hx' ⊢
      exact hs.executedFields x hx hx'
  · intro j1' h1 j2' h2 hlt h2w
    rcases mem_updateJob.mp h1 with ⟨x1, hx1, rfl⟩
    rcases mem_updateJob.mp h2 with ⟨x2, hx2, rfl⟩
    rw [updateJob_id_eq hid x1, updateJob_id_eq hid x2] at hlt
    by_cases h1k : x1.id = jid
    · rw [if_pos h1k, completeRow_state]
      simp
    · rw [if_neg h1k]
      have hx2nw : x2.state ≠ JobState.waiting := by
        by_cases h2k : x2.id = jid
        · have hx2r : x2 = r := uniq hx2 hrmem (h2k.trans hrid.symm)
          rw [hx2r, hrrun]
          simp
        · rw [if_neg h2k] at h2w
          exact h2w
      exact hs.fifo x1 hx1 x2 hx2 hlt hx2nw


theorem runPdf_missing (s : ServerState) (t : Nat) :
    runPdf s none t = (s, RunPdfResult.badRequest "URL parameter is required") :=
  rfl

theorem runPdf_empty (s : ServerState) (t : Nat) :
    runPdf s (some "") t = (s, RunPdfResult.badRequest "URL parameter is required") :=
  rfl

theorem runPdf_invalid {url : String} (s : ServerState) (t : Nat)
    (h1 : url ≠ "") (h : parsesAsAbsoluteURL url = false) :
    runPdf s (some url) t = (s, RunPdfResult.badRequest "Invalid URL format") := by
  simp only [runPdf, h1, if_false, h]
  rfl

theorem runPdf_ok {url : String} (s : ServerState) (t : Nat)
    (h1 : url ≠ "") (h2 : parsesAsAbsoluteURL url = true) :
    runPdf s (some url) t = (enqueueState s url t, RunPdfResult.ok s.nextId) := by
  simp only [runPdf, h1, if_false, h2, if_true]
  rfl

theorem processTick_busy {s : ServerState} {j : Nat} (t : Nat)
    (hc : s.currentJob = some j) : processTick s t = (s, none) := by
  simp only [processTick, hc]

theorem processTick_empty {s : ServerState} (t : Nat)
    (hc : s.currentJob = none) (hw : selectOldestWaiting s.jobs = none) :
    processTick s t = (s, none) := by
  simp only [processTick, hc, hw]

theorem processTick_claim {s : ServerState} {w : Job} (t : Nat)
    (hc : s.currentJob = none) (hw : selectOldestWaiting s.jobs = some w) :
    processTick s t = (claimState s w t, some w.id) := by
  simp only [processTick, hc, hw, claimState]

theorem completeJob_idle {s : ServerState} (ok : Bool) (msg stack : String)
    (t : Nat) (hc : s.currentJob = none) : completeJob s ok msg stack t = s := by
  simp only [completeJob, hc]

theorem completeJob_busy {s : ServerState} {jid : Nat} (ok : Bool)
    (msg stack : String) (t : Nat) (hc : s.currentJob = some jid) :
    completeJob s ok msg stack t = completeState s jid ok msg stack t := by
  simp only [completeJob, hc, completeState]

/-- Every event preserves the system invariant. -/
theorem inv_step {s : ServerState} (hs : Inv s) (e : Event) :
    Inv (stepEv s e) := by
  cases e with
  | enq body t =>
    cases body with
    | none =>
      show Inv (runPdf s none t).1
      rw [runPdf_missing]
      exact hs
    | some url =>
      show Inv (runPdf s (some url) t).1
      by_cases h1 : url = ""
      · subst h1
        rw [runPdf_empty]
        exact hs
      · cases h2 : parsesAsAbsoluteURL url with
        | false =>
          rw [runPdf_invalid s t h1 h2]
          exact hs
        | true =>
          rw [runPdf_ok s t h1 h2]
          exact inv_enqueue hs url t
  | tick t =>
    show Inv (processTick s t).1
    cases hc : s.currentJob with
    | some j =>
      rw [processTick_busy t hc]
      exact hs
    | none =>
      cases hw : selectOldestWaiting s.jobs with
      | none =>
        rw [processTick_empty t hc hw]
        exact hs
      | some w =>
        rw [processTick_claim t hc hw]
        exact inv_claim hs hc hw t
  | finish ok msg stack t =>
    show Inv (completeJob s ok msg stack t)
    cases hc : s.currentJob with
    | none =>
      rw [completeJob_idle ok msg stack t hc]
      exact hs
    | some jid =>
      rw [completeJob_busy ok msg stack t hc]
      exact inv_complete hs hc ok msg stack t

/-- The fresh database satisfies the invariant. -/
theorem inv_init : Inv initState := by
  refine ⟨?_, ?_, ?_, ?_, ?_, ?_, ?_, ?_⟩ <;> simp [initState]

/-- Every trace-reachable state satisfies the invariant. -/
theorem inv_run (tr : List Event) : ∀ s : ServerState, Inv s → Inv (run s tr) := by
  induction tr with
  | nil => intro s hs; exact hs
  | cons e es ih => intro s hs; exact ih _ (inv_step hs e)

/-- States reachable from the fresh database satisfy the invariant. -/
theorem inv_reach (tr : List Event) : Inv (run initState tr) :=
  inv_run tr initState inv_init
/-- Timestamps stored in the table are bounded by the wall clock `b`, and
each job's timestamps are internally ordered. -/
structure TSInv (s : ServerState) (b : Nat) : Prop where
  req : ∀ j ∈ s.jobs, j.requestedAt ≤ b
  startB : ∀ j ∈ s.jobs, ∀ a, j.startedAt = some a → a ≤ b
  finB : ∀ j ∈ s.jobs, ∀ a, j.finishedAt = some a → a ≤ b
  ord : ∀ j ∈ s.jobs, tsOrdered j

theorem tsInv_mono {s : ServerState} {b b' : Nat} (h : TSInv s b) (hb : b ≤ b') :
    TSInv s b' :=
  ⟨fun j hj => Nat.le_trans (h.req j hj) hb,
   fun j hj a ha => Nat.le_trans (h.startB j hj a ha) hb,
   fun j hj a ha => Nat.le_trans (h.finB j hj a ha) hb,
   h.ord⟩

theorem tsInv_enqueue {s : ServerState} {b : Nat} (h : TSInv s b)
    (url : String) {t : Nat} (hb : b ≤ t) : TSInv (enqueueState s url t) t := by
  refine ⟨?_, ?_, ?_, ?_⟩ <;> intro j hj <;>
    rcases List.mem_append.mp hj with hj | hj
  · exact Nat.le_trans (h.req j hj) hb
  · simp only [List.mem_singleton] at hj
    subst hj
    exact Nat.le_refl t
  · exact fun a ha => Nat.le_trans (h.startB j hj a ha) hb
  · simp only [List.mem_singleton] at hj
    subst hj
    intro a ha
    cases ha
  · exact fun a ha => Nat.le_trans (h.finB j hj a ha) hb
  · simp only [List.mem_singleton] at hj
    subst hj
    intro a ha
    cases ha
  · exact h.ord j hj
  · simp only [List.mem_singleton] at hj
    subst hj
    refine ⟨?_, ?_, ?_⟩
    · intro a ha
      cases ha
    · intro a ha
      cases ha
    · intro a c ha _
      cases ha

theorem tsInv_claim {s : ServerState} {w : Job} {b : Nat} (hs : Inv s)
    (h : TSInv s b) (hc : s.currentJob = none)
    (hw : selectOldestWaiting s.jobs = some w) {t : Nat} (hb : b ≤ t) :
    TSInv (claimState s w t) t := by
  rcases selectOldestWaiting_spec hw with ⟨hwmem, hww, -⟩
  have uniq : ∀ {x y : Job}, x ∈ s.jobs → y ∈ s.jobs → x.id = y.id → x = y :=
    fun hx hy => eq_of_id_eq hs.sorted hx hy
  refine ⟨?_, ?_, ?_, ?_⟩ <;> intro j' hj' <;>
    rcases mem_updateJob.mp hj' with ⟨x, hx, rfl⟩ <;> by_cases hxk : x.id = w.id
  · rw [if_pos hxk]
    exact Nat.le_trans (h.req x hx) hb
  · rw [if_neg hxk]
    exact Nat.le_trans (h.req x hx) hb
  · rw [if_pos hxk]
    intro a ha
    cases ha
    exact Nat.le_refl t
  · rw [if_neg hxk]
    exact fun a ha => Nat.le_trans (h.startB x hx a ha) hb
  · rw [if_pos hxk]
    intro a ha
    exact Nat.le_trans (h.finB x hx a ha) hb
  · rw [if_neg hxk]
    exact fun a ha => Nat.le_trans (h.finB x hx a ha) hb
  · rw [if_pos hxk]
    have hxw : x = w := uniq hx hwmem hxk
    subst hxw
    have hfin : x.finishedAt = none := (hs.waitingFields x hx hww).2.1
    refine ⟨?_, ?_, ?_⟩
    · intro a ha
      cases ha
      exact Nat.le_trans (h.req x hx) hb
    · intro a ha
      rw [hfin] at ha
      cases ha
    · intro a c _ hcc
      rw [hfin] at hcc
      cases hcc
  · rw [if_neg hxk]
    exact h.ord x hx

theorem tsInv_complete {s : ServerState} {jid : Nat} {b : Nat}
    (h : TSInv s b) (ok : Bool) (msg stack : String) {t : Nat} (hb : b ≤ t) :
    TSInv (completeState s jid ok msg stack t) t := by
  refine ⟨?_, ?_, ?_, ?_⟩ <;> intro j' hj' <;>
    rcases mem_updateJob.mp hj' with ⟨x, hx, rfl⟩ <;> by_cases hxk : x.id = jid
  · rw [if_pos hxk, completeRow_req]
    exact Nat.le_trans (h.req x hx) hb
  · rw [if_neg hxk]
    exact Nat.le_trans (h.req x hx) hb
  · rw [if_pos hxk, completeRow_started]
    exact fun a ha => Nat.le_trans (h.startB x hx a ha) hb
  · rw [if_neg hxk]
    exact fun a ha => Nat.le_trans (h.startB x hx a ha) hb
  · rw [if_pos hxk, completeRow_fin]
    intro a ha
    cases ha
    exact Nat.le_refl t
  · rw [if_neg hxk]
    exact fun a ha => Nat.le_trans (h.finB x hx a ha) hb
  · rw [if_pos hxk]
    refine ⟨?_, ?_, ?_⟩
    · rw [completeRow_started, completeRow_req]
      exact (h.ord x hx).1
    · rw [completeRow_fin, completeRow_req]
      intro a ha
      cases ha
      exact Nat.le_trans (h.req x hx) hb
    · rw [completeRow_started, completeRow_fin]
      intro a c ha hcc
      cases hcc
      exact Nat.le_trans (h.startB x hx a ha) hb
  · rw [if_neg hxk]
    exact h.ord x hx

/-- Each event keeps the timestamp invariant, at the event time. -/
theorem tsInv_step {s : ServerState} {b : Nat} (hs : Inv s) (h : TSInv s b)
    (e : Event) (hb : b ≤ eventTime e) : TSInv (stepEv s e) (eventTime e) := by
  cases e with
  | enq body t =>
    cases body with
    | none =>
      show TSInv (runPdf s none t).1 t
      rw [runPdf_missing]
      exact tsInv_mono h hb
    | some url =>
      show TSInv (runPdf s (some url) t).1 t
      by_cases h1 : url = ""
      · subst h1
        rw [runPdf_empty]
        exact tsInv_mono h hb
      · cases h2 : parsesAsAbsoluteURL url with
        | false =>
          rw [runPdf_invalid s t h1 h2]
          exact tsInv_mono h hb
        | true =>
          rw [runPdf_ok s t h1 h2]
          exact tsInv_enqueue h url hb
  | tick t =>
    show TSInv (processTick s t).1 t
    cases hc : s.currentJob with
    | some j =>
      rw [processTick_busy t hc]
      exact tsInv_mono h hb
    | none =>
      cases hw : selectOldestWaiting s.jobs with
      | none =>
        rw [processTick_empty t hc hw]
        exact tsInv_mono h hb
      | some w =>
        rw [processTick_claim t hc hw]
        exact tsInv_claim hs h hc hw hb
  | finish ok msg stack t =>
    show TSInv (completeJob s ok msg stack t) t
    cases hc : s.currentJob with
    | none =>
      rw [completeJob_idle ok msg stack t hc]
      exact tsInv_mono h hb
    | some jid =>
      rw [completeJob_busy ok msg stack t hc]
      exact tsInv_complete h ok msg stack hb

theorem tsInv_init : TSInv initState 0 := by
  refine ⟨?_, ?_, ?_, ?_⟩ <;> intro j hj <;> cases hj

theorem tsInv_run (tr : List Event) :
    ∀ (s : ServerState) (b : Nat), Inv s → TSInv s b → timesMono b tr →
      ∃ b', TSInv (run s tr) b' := by
  induction tr with
  | nil => exact fun s b _ h _ => ⟨b, h⟩
  | cons e es ih =>
    intro s b hs h htm
    exact ih (stepEv s e) (eventTime e) (inv_step hs e)
      (tsInv_step hs h e htm.1) htm.2
/-- `SELECT ... WHERE id = ?` after an id-preserving `UPDATE ... WHERE id = k`:
the found row is the old row, updated when its id is `k`. -/
theorem find?_updateJob {l : List Job} {k jid : Nat} {g : Job → Job}
    (hid : ∀ x, (g x).id = x.id) {j : Job}
    (h : l.find? (fun x => x.id == jid) = some j) :
    (updateJob l k g).find? (fun x => x.id == jid) =
      some (if j.id = k then g j else j) := by
  induction l with
  | nil => cases h
  | cons a tl ih =>
    have hhd : (if a.id = k then g a else a).id = a.id := updateJob_id_eq hid a
    by_cases ha : a.id = jid
    · rw [List.find?_cons_of_pos _ (by simp [ha])] at h
      obtain rfl : a = j := Option.some.inj h
      show List.find? _ ((if a.id = k then g a else a) :: updateJob tl k g) = _
      rw [List.find?_cons_of_pos _ (by simp only [beq_iff_eq, hhd]; exact ha)]
    · rw [List.find?_cons_of_neg _ (by simp [ha])] at h
      show List.find? _ ((if a.id = k then g a else a) :: updateJob tl k g) = _
      rw [List.find?_cons_of_neg _ (by simp [hhd, ha])]
      exact ih h

/-- Appending rows does not change an existing lookup. -/
theorem find?_append_left {l l' : List Job} {p : Job → Bool} {j : Job}
    (h : l.find? p = some j) : (l ++ l').find? p = some j := by
  rw [List.find?_append, h]
  rfl

/-- An existing row survives the enqueue insert unchanged. -/
theorem findById_enqueue {s : ServerState} {jid : Nat} {j : Job}
    (h : findById s jid = some j) (url : String) (t : Nat) :
    findById (enqueueState s url t) jid = some j :=
  find?_append_left h

/-- Looking up the row just inserted by a successful enqueue. -/
theorem findById_enqueue_new {s : ServerState} (hs : Inv s) (url : String)
    (t : Nat) :
    findById (enqueueState s url t) s.nextId =
      some { id := s.nextId, url := url, state := JobState.waiting,
             requestedAt := t } := by
  show (s.jobs ++ [_]).find? _ = _
  rw [List.find?_append]
  have hnone : s.jobs.find? (fun x => x.id == s.nextId) = none := by
    rw [List.find?_eq_none]
    intro x hx
    simp only [beq_iff_eq]
    exact Nat.ne_of_lt (hs.idsLt x hx)
  rw [hnone]
  simp

/-- A row in `Executed` state is never touched again by any event. -/
theorem executed_step {s : ServerState} {jid : Nat} {j : Job} (hs : Inv s)
    (hf : findById s jid = some j) (hx : j.state = JobState.executed)
    (e : Event) : findById (stepEv s e) jid = some j := by
  have hjid : j.id = jid := by
    have := List.find?_some hf
    simpa using this
  have hjmem : j ∈ s.jobs := List.mem_of_find?_eq_some hf
  cases e with
  | enq body t =>
    cases body with
    | none =>
      show findById (runPdf s none t).1 jid = some j
      rw [runPdf_missing]
      exact hf
    | some url =>
      show findById (runPdf s (some url) t).1 jid = some j
      by_cases h1 : url = ""
      · subst h1
        rw [runPdf_empty]
        exact hf
      · cases h2 : parsesAsAbsoluteURL url with
        | false =>
          rw [runPdf_invalid s t h1 h2]
          exact hf
        | true =>
          rw [runPdf_ok s t h1 h2]
          exact findById_enqueue hf url t
  | tick t =>
    show findById (processTick s t).1 jid = some j
    cases hc : s.currentJob with
    | some i =>
      rw [processTick_busy t hc]
      exact hf
    | none =>
      cases hw : selectOldestWaiting s.jobs with
      | none =>
        rw [processTick_empty t hc hw]
        exact hf
      | some w =>
        rw [processTick_claim t hc hw]
        rcases selectOldestWaiting_spec hw with ⟨hwmem, hww, -⟩
        have hne : j.id ≠ w.id := by
          intro he
          have : j = w := eq_of_id_eq hs.sorted hjmem hwmem he
          rw [this, hww] at hx
          cases hx
        have := @find?_updateJob s.jobs w.id jid
          (fun x => { x with state := JobState.running, startedAt := some t })
          (fun _ => rfl) j hf
        rw [if_neg hne] at this
        exact this
  | finish ok msg stack t =>
    show findById (completeJob s ok msg stack t) jid = some j
    cases hc : s.currentJob with
    | none =>
      rw [completeJob_idle ok msg stack t hc]
      exact hf
    | some jid' =>
      rw [completeJob_busy ok msg stack t hc]
      rcases hs.curRunning jid' hc with ⟨r, hrmem, hrid, hrrun⟩
      have hne : j.id ≠ jid' := by
        intro he
        have : j = r := eq_of_id_eq hs.sorted hjmem hrmem (he.trans hrid.symm)
        rw [this, hrrun] at hx
        cases hx
      have := @find?_updateJob s.jobs jid' jid (completeRow ok msg stack t)
        (completeRow_id ok msg stack t) j hf
      rw [if_neg hne] at this
      exact this

/-- A row in `Executed` state is unchanged by any further trace. -/
theorem executed_run {jid : Nat} {j : Job} (tr : List Event) :
    ∀ s : ServerState, Inv s → findById s jid = some j →
      j.state = JobState.executed → findById (run s tr) jid = some j := by
  induction tr with
  | nil => exact fun s _ hf _ => hf
  | cons e es ih =>
    intro s hs hf hx
    exact ih (stepEv s e) (inv_step hs e) (executed_step hs hf hx e) hx

/-- Every event preserves a row's existence, id and url. -/
theorem url_step {s : ServerState} {jid : Nat} {j : Job} (hs : Inv s)
    (hf : findById s jid = some j) (e : Event) :
    ∃ j', findById (stepEv s e) jid = some j' ∧ j'.url = j.url := by
  cases e with
  | enq body t =>
    cases body with
    | none =>
      refine ⟨j, ?_, rfl⟩
      show findById (runPdf s none t).1 jid = some j
      rw [runPdf_missing]
      exact hf
    | some url =>
      by_cases h1 : url = ""
      · subst h1
        refine ⟨j, ?_, rfl⟩
        show findById (runPdf s (some "") t).1 jid = some j
        rw [runPdf_empty]
        exact hf
      · cases h2 : parsesAsAbsoluteURL url with
        | false =>
          refine ⟨j, ?_, rfl⟩
          show findById (runPdf s (some url) t).1 jid = some j
          rw [runPdf_invalid s t h1 h2]
          exact hf
        | true =>
          refine ⟨j, ?_, rfl⟩
          show findById (runPdf s (some url) t).1 jid = some j
          rw [runPdf_ok s t h1 h2]
          exact findById_enqueue hf url t
  | tick t =>
    cases hc : s.currentJob with
    | some i =>
      refine ⟨j, ?_, rfl⟩
      show findById (processTick s t).1 jid = some j
      rw [processTick_busy t hc]
      exact hf
    | none =>
      cases hw : selectOldestWaiting s.jobs with
      | none =>
        refine ⟨j, ?_, rfl⟩
        show findById (processTick s t).1 jid = some j
        rw [processTick_empty t hc hw]
        exact hf
      | some w =>
        refine ⟨if j.id = w.id then
          { j with state := JobState.running, startedAt := some t } else j, ?_, ?_⟩
        · show findById (processTick s t).1 jid = _
          rw [processTick_claim t hc hw]
          exact @find?_updateJob s.jobs w.id jid
            (fun x => { x with state := JobState.running, startedAt := some t })
            (fun _ => rfl) j hf
        · split <;> rfl
  | finish ok msg stack t =>
    cases hc : s.currentJob with
    | none =>
      refine ⟨j, ?_, rfl⟩
      show findById (completeJob s ok msg stack t) jid = some j
      rw [completeJob_idle ok msg stack t hc]
      exact hf
    | some jid' =>
      refine ⟨if j.id = jid' then completeRow ok msg stack t j else j, ?_, ?_⟩
      · show findById (completeJob s ok msg stack t) jid = _
        rw [completeJob_busy ok msg stack t hc]
        exact @find?_updateJob s.jobs jid' jid (completeRow ok msg stack t)
          (completeRow_id ok msg stack t) j hf
      · split
        · rw [completeRow_url]
        · rfl

/-- A row's url is preserved by every further trace. -/
theorem url_run {jid : Nat} (tr : List Event) :
    ∀ (s : ServerState) (j : Job), Inv s → findById s jid = some j →
      ∃ j', findById (run s tr) jid = some j' ∧ j'.url = j.url := by
  induction tr with
  | nil => exact fun s j _ hf => ⟨j, hf, rfl⟩
  | cons e es ih =>
    intro s j hs hf
    rcases url_step hs hf e with ⟨j', hf', hu⟩
    rcases ih (stepEv s e) j' (inv_step hs e) hf' with ⟨j'', hf'', hu'⟩
    exact ⟨j'', hf'', hu'.trans hu⟩
/-- Whether a `POST /runPdf` response is the 400 validation failure. -/
def isBadRequest : RunPdfResult → Bool
  | RunPdfResult.ok _ => false
  | RunPdfResult.badRequest _ => true

/-- In an id-sorted table, looking up a member row by its id finds it. -/
theorem find?_of_mem_unique {l : List Job}
    (hp : l.Pairwise (fun a b => a.id < b.id)) {r : Job} (hr : r ∈ l) :
    l.find? (fun x => x.id == r.id) = some r := by
  induction l with
  | nil => cases hr
  | cons a tl ih =>
    rcases List.pairwise_cons.mp hp with ⟨hhd, htl⟩
    rcases List.mem_cons.mp hr with hr' | hr'
    · subst hr'
      rw [List.find?_cons_of_pos _ (by simp)]
    · have hne : a.id ≠ r.id := Nat.ne_of_lt (hhd r hr')
      rw [List.find?_cons_of_neg _ (by simp [hne])]
      exact ih htl hr'

/-- Looking up a member row of a reachable state by id finds that row. -/
theorem findById_of_mem {s : ServerState} (hs : Inv s) {r : Job}
    (hr : r ∈ s.jobs) : findById s r.id = some r :=
  find?_of_mem_unique hs.sorted hr

/-- C1: at any reachable instant at most one job is `Running`, and a worker
tick that arrives while `isProcessing` is set performs no claim and leaves
the state untouched, so no two ticks ever execute concurrently. -/
theorem c1_single_flight :
    (∀ tr : List Event, ∀ j1 ∈ (run initState tr).jobs,
       ∀ j2 ∈ (run initState tr).jobs,
       j1.state = JobState.running → j2.state = JobState.running → j1 = j2) ∧
    (∀ (s : ServerState) (i t : Nat), s.currentJob = some i →
       processTick s t = (s, none)) := by
  constructor
  · intro tr j1 h1 j2 h2 hr1 hr2
    have hs := inv_reach tr
    have e1 := hs.runningCur j1 h1 hr1
    have e2 := hs.runningCur j2 h2 hr2
    exact eq_of_id_eq hs.sorted h1 h2 (Option.some.inj (e1.symm.trans e2))
  · intro s i t hc
    exact processTick_busy t hc

/-- Witness for C1 on a concrete trace and a concrete busy state. -/
theorem c1_single_flight_witness :
    ({ id := 1, url := "https://example.com", state := JobState.running,
       requestedAt := 0, startedAt := some 1 } : Job) =
      { id := 1, url := "https://example.com", state := JobState.running,
        requestedAt := 0, startedAt := some 1 } ∧
    processTick { jobs := [], nextId := 1, currentJob := some 1 } 5 =
      ({ jobs := [], nextId := 1, currentJob := some 1 }, none) :=
  ⟨c1_single_flight.1 [Event.enq (some "https://example.com") 0, Event.tick 1]
      { id := 1, url := "https://example.com", state := JobState.running,
        requestedAt := 0, startedAt := some 1 } (by decide)
      { id := 1, url := "https://example.com", state := JobState.running,
        requestedAt := 0, startedAt := some 1 } (by decide) rfl rfl,
   c1_single_flight.2 { jobs := [], nextId := 1, currentJob := some 1 } 1 5 rfl⟩

/-- C2: ids are assigned strictly increasing; the worker claims the Waiting
job with the least id; and no later-inserted job has `startedAt` set while
an earlier-inserted job is still Waiting. -/
theorem c2_fifo_order :
    ∀ tr : List Event,
      ((run initState tr).jobs.Pairwise (fun a b => a.id < b.id)) ∧
      (∀ t jid : Nat, (processTick (run initState tr) t).2 = some jid →
        ∃ w ∈ (run initState tr).jobs, w.id = jid ∧
          w.state = JobState.waiting ∧
          ∀ j' ∈ (run initState tr).jobs, j'.state = JobState.waiting →
            jid ≤ j'.id) ∧
      (∀ j1 ∈ (run initState tr).jobs, ∀ j2 ∈ (run initState tr).jobs,
        j1.id < j2.id → j1.state = JobState.waiting → j2.startedAt = none) := by
  intro tr
  have hs := inv_reach tr
  refine ⟨hs.sorted, ?_, ?_⟩
  · intro t jid hclaim
    cases hc : (run initState tr).currentJob with
    | some i =>
      rw [processTick_busy t hc] at hclaim
      cases hclaim
    | none =>
      cases hw : selectOldestWaiting (run initState tr).jobs with
      | none =>
        rw [processTick_empty t hc hw] at hclaim
        cases hclaim
      | some w =>
        rw [processTick_claim t hc hw] at hclaim
        obtain rfl : w.id = jid := Option.some.inj hclaim
        rcases selectOldestWaiting_spec hw with ⟨hwmem, hww, hwmin⟩
        exact ⟨w, hwmem, rfl, hww, hwmin⟩
  · intro j1 h1 j2 h2 hlt h1w
    have h2w : j2.state = JobState.waiting := by
      by_contra hne
      exact (hs.fifo j1 h1 j2 h2 hlt hne) h1w
    exact (hs.waitingFields j2 h2 h2w).1

/-- Witness for C2 on a trace with two enqueued jobs. -/
theorem c2_fifo_order_witness :
    ({ id := 2, url := "https://example.org", state := JobState.waiting,
       requestedAt := 1 } : Job).startedAt = none :=
  (c2_fifo_order [Event.enq (some "https://example.com") 0,
      Event.enq (some "https://example.org") 1]).2.2
    { id := 1, url := "https://example.com", state := JobState.waiting,
      requestedAt := 0 } (by decide)
    { id := 2, url := "https://example.org", state := JobState.waiting,
      requestedAt := 1 } (by decide) (by decide) rfl

/-- C3: once a job is `Executed` its `finishedAt` is non-null and no further
event of the system ever changes its row again (terminal state). -/
theorem c3_executed_terminal :
    ∀ (tr tr2 : List Event) (jid : Nat) (j : Job),
      findById (run initState tr) jid = some j →
      j.state = JobState.executed →
      j.finishedAt ≠ none ∧
        findById (run (run initState tr) tr2) jid = some j := by
  intro tr tr2 jid j hf hx
  have hs := inv_reach tr
  have hjmem : j ∈ (run initState tr).jobs := List.mem_of_find?_eq_some hf
  exact ⟨(hs.executedFields j hjmem hx).2, executed_run tr2 _ hs hf hx⟩

/-- Witness for C3 on a trace that executes one job successfully. -/
theorem c3_executed_terminal_witness :
    ({ id := 1, url := "https://example.com", state := JobState.executed,
       requestedAt := 0, startedAt := some 1, finishedAt := some 2,
       success := true } : Job).finishedAt ≠ none ∧
    findById
      (run (run initState [Event.enq (some "https://example.com") 0,
            Event.tick 1, Event.finish true "" "" 2]) [Event.tick 3]) 1 =
      some { id := 1, url := "https://example.com",
             state := JobState.executed, requestedAt := 0,
             startedAt := some 1, finishedAt := some 2, success := true } :=
  c3_executed_terminal
    [Event.enq (some "https://example.com") 0, Event.tick 1,
     Event.finish true "" "" 2] [Event.tick 3] 1
    { id := 1, url := "https://example.com", state := JobState.executed,
      requestedAt := 0, startedAt := some 1, finishedAt := some 2,
      success := true } (by decide) rfl
/-- C4: when the page execution of the claimed job fails, the job is
recorded as terminal `Executed` with `success = false` and an `error` text
that starts with the failure message; the worker's busy flag is cleared (the
loop proceeds to its next tick), and the failed job is never claimed
again by any later tick. -/
theorem c4_failure_recorded :
    ∀ (tr : List Event) (jid : Nat) (msg stack : String) (t : Nat),
      (run initState tr).currentJob = some jid →
      (∃ j, findById (completeJob (run initState tr) false msg stack t) jid =
          some j ∧
        j.state = JobState.executed ∧ j.success = false ∧
        j.finishedAt = some t ∧ j.error = some (mkErrorMessage msg stack) ∧
        ∃ rest, j.error = some (msg ++ rest)) ∧
      (completeJob (run initState tr) false msg stack t).currentJob = none ∧
      (∀ (tr2 : List Event) (t2 : Nat),
        (processTick
          (run (completeJob (run initState tr) false msg stack t) tr2)
          t2).2 ≠ some jid) := by
  intro tr jid msg stack t hc
  have hs := inv_reach tr
  obtain ⟨r, hrmem, hrid, hrrun⟩ := hs.curRunning jid hc
  have hfr : findById (run initState tr) jid = some r := by
    have h := findById_of_mem hs hrmem
    rw [hrid] at h
    exact h
  have hfind : findById (completeState (run initState tr) jid false msg stack t)
      jid = some (completeRow false msg stack t r) := by
    have h := @find?_updateJob (run initState tr).jobs jid jid
      (completeRow false msg stack t) (completeRow_id false msg stack t) r hfr
    rw [if_pos hrid] at h
    exact h
  refine ⟨?_, ?_, ?_⟩
  · rw [completeJob_busy false msg stack t hc]
    refine ⟨completeRow false msg stack t r, hfind,
      completeRow_state false msg stack t r, ?_, completeRow_fin false msg stack t r,
      ?_, "\n\nStack trace:\n" ++ stack, ?_⟩
    · simp [completeRow]
    · simp [completeRow]
    · simp [completeRow, mkErrorMessage, String.append_assoc]
  · rw [completeJob_busy false msg stack t hc]
    rfl
  · intro tr2 t2 hclaim
    rw [completeJob_busy false msg stack t hc] at hclaim
    have hs' : Inv (completeState (run initState tr) jid false msg stack t) :=
      inv_complete hs hc false msg stack t
    have hex : (completeRow false msg stack t r).state = JobState.executed :=
      completeRow_state false msg stack t r
    have hrun2 := executed_run tr2 _ hs' hfind hex
    have hs2 := inv_run tr2 _ hs'
    cases hc2 : (run (completeState (run initState tr) jid false msg stack t)
        tr2).currentJob with
    | some i =>
      rw [processTick_busy t2 hc2] at hclaim
      cases hclaim
    | none =>
      cases hw2 : selectOldestWaiting
          (run (completeState (run initState tr) jid false msg stack t)
            tr2).jobs with
      | none =>
        rw [processTick_empty t2 hc2 hw2] at hclaim
        cases hclaim
      | some w =>
        rw [processTick_claim t2 hc2 hw2] at hclaim
        have hwid : w.id = jid := Option.some.inj hclaim
        rcases selectOldestWaiting_spec hw2 with ⟨hwmem, hww, -⟩
        have hjmem := List.mem_of_find?_eq_some hrun2
        have hjid : (completeRow false msg stack t r).id = jid := by
          rw [completeRow_id]
          exact hrid
        have hwj : w = completeRow false msg stack t r :=
          eq_of_id_eq hs2.sorted hwmem hjmem (hwid.trans hjid.symm)
        rw [hwj, hex] at hww
        cases hww

/-- Witness for C4 on a trace that claims one job, then fails it. -/
theorem c4_failure_recorded_witness :
    (∃ j, findById (completeJob
        (run initState [Event.enq (some "https://example.com") 0, Event.tick 1])
        false "timeout" "stack" 9) 1 = some j ∧
      j.state = JobState.executed ∧ j.success = false ∧
      j.finishedAt = some 9 ∧ j.error = some (mkErrorMessage "timeout" "stack") ∧
      ∃ rest, j.error = some ("timeout" ++ rest)) ∧
    (completeJob
        (run initState [Event.enq (some "https://example.com") 0, Event.tick 1])
        false "timeout" "stack" 9).currentJob = none ∧
    (∀ (tr2 : List Event) (t2 : Nat),
      (processTick (run (completeJob
          (run initState [Event.enq (some "https://example.com") 0, Event.tick 1])
          false "timeout" "stack" 9) tr2) t2).2 ≠ some 1) :=
  c4_failure_recorded [Event.enq (some "https://example.com") 0, Event.tick 1]
    1 "timeout" "stack" 9 (by decide)

/-- C5: a missing or syntactically malformed url is rejected with a
validation failure and the job table is left exactly unchanged. -/
theorem c5_invalid_rejected :
    ∀ (s : ServerState) (t : Nat) (body : Option String),
      (body = none ∨ ∃ u, body = some u ∧ parsesAsAbsoluteURL u = false) →
      (runPdf s body t).1 = s ∧ isBadRequest (runPdf s body t).2 = true := by
  intro s t body h
  rcases h with rfl | ⟨u, rfl, hu⟩
  · rw [runPdf_missing]
    exact ⟨rfl, rfl⟩
  · by_cases he : u = ""
    · subst he
      rw [runPdf_empty]
      exact ⟨rfl, rfl⟩
    · rw [runPdf_invalid s t he hu]
      exact ⟨rfl, rfl⟩

/-- Witness for C5 with the spec's concrete malformed url. -/
theorem c5_invalid_rejected_witness :
    (runPdf initState (some "not a url") 0).1 = initState ∧
    isBadRequest (runPdf initState (some "not a url") 0).2 = true :=
  c5_invalid_rejected initState 0 (some "not a url")
    (Or.inr ⟨"not a url", rfl, by decide⟩)

/-- C6: when the in-flight execution succeeds, the completion stamps
`finishedAt`, sets state `Executed`, sets the success flag, and the finished
job's `error` field reads as null. -/
theorem c6_success_completion :
    ∀ (tr : List Event) (jid : Nat) (msg stack : String) (t : Nat),
      (run initState tr).currentJob = some jid →
      ∃ j, findById (completeJob (run initState tr) true msg stack t) jid =
          some j ∧
        j.state = JobState.executed ∧ j.finishedAt = some t ∧
        j.success = true ∧ j.error = none := by
  intro tr jid msg stack t hc
  have hs := inv_reach tr
  obtain ⟨r, hrmem, hrid, hrrun⟩ := hs.curRunning jid hc
  have hfr : findById (run initState tr) jid = some r := by
    have h := findById_of_mem hs hrmem
    rw [hrid] at h
    exact h
  have hfind : findById (completeState (run initState tr) jid true msg stack t)
      jid = some (completeRow true msg stack t r) := by
    have h := @find?_updateJob (run initState tr).jobs jid jid
      (completeRow true msg stack t) (completeRow_id true msg stack t) r hfr
    rw [if_pos hrid] at h
    exact h
  rw [completeJob_busy true msg stack t hc]
  refine ⟨completeRow true msg stack t r, hfind,
    completeRow_state true msg stack t r, completeRow_fin true msg stack t r,
    ?_, ?_⟩
  · simp [completeRow]
  · have herr : r.error = none := (hs.runningFields r hrmem hrrun).2.2.1
    simp [completeRow, herr]

/-- Witness for C6 on a trace that claims one job, then succeeds. -/
theorem c6_success_completion_witness :
    ∃ j, findById (completeJob
        (run initState [Event.enq (some "https://example.com") 0, Event.tick 1])
        true "" "" 7) 1 = some j ∧
      j.state = JobState.executed ∧ j.finishedAt = some 7 ∧
      j.success = true ∧ j.error = none :=
  c6_success_completion [Event.enq (some "https://example.com") 0, Event.tick 1]
    1 "" "" 7 (by decide)

/-- C7: a job inserted with url `U` and fetched later by its id still has
url `U`, and on any wall-clock-monotone trace every job's timestamps satisfy
`requestedAt ≤ startedAt ≤ finishedAt` (null fields skipped). -/
theorem c7_roundtrip :
    (∀ (s : ServerState) (tr : List Event) (U : String) (t : Nat)
       (s' : ServerState) (jid : Nat), Inv s →
       runPdf s (some U) t = (s', RunPdfResult.ok jid) →
       ∃ j', findById (run s' tr) jid = some j' ∧ j'.url = U) ∧
    (∀ tr : List Event, timesMono 0 tr →
       ∀ j ∈ (run initState tr).jobs, tsOrdered j) := by
  constructor
  · intro s tr U t s' jid hs h
    by_cases he : U = ""
    · subst he
      rw [runPdf_empty] at h
      injection h with h1 h2
      exact RunPdfResult.noConfusion h2
    · cases hp : parsesAsAbsoluteURL U with
      | false =>
        rw [runPdf_invalid s t he hp] at h
        injection h with h1 h2
        exact RunPdfResult.noConfusion h2
      | true =>
        rw [runPdf_ok s t he hp] at h
        injection h with h1 h2
        injection h2 with h3
        subst h1
        subst h3
        have hnew := findById_enqueue_new hs U t
        have hs' := inv_enqueue hs U t
        rcases url_run tr (enqueueState s U t) _ hs' hnew with ⟨j', hf', hu⟩
        exact ⟨j', hf', hu⟩
  · intro tr htm j hj
    obtain ⟨b', hts⟩ := tsInv_run tr initState 0 inv_init tsInv_init htm
    exact hts.ord j hj

/-- Witness for C7: enqueue a url, run a tick, and fetch it back. -/
theorem c7_roundtrip_witness :
    ∃ j', findById
        (run (enqueueState initState "https://example.com" 0) [Event.tick 3]) 1 =
        some j' ∧ j'.url = "https://example.com" :=
  c7_roundtrip.1 initState [Event.tick 3] "https://example.com" 0
    (enqueueState initState "https://example.com" 0) 1 inv_init (by decide)
/-- C8 counterexample: the id string `"12abc"` is not a numeral, yet the
handler answers 404 (not 400), because JavaScript `parseInt` reads the
numeric prefix `12`. -/
theorem c8_nonnumeric_counterexample :
    getJobHandler initState "12abc" = GetJobResult.notFound ∧
    getJobStatus (getJobHandler initState "12abc") = 404 ∧
    getJobHandler initState "12abc" ≠ GetJobResult.invalidId := by
  decide

/-- C8 (amended): `GET /job/:id` returns the job when the parsed id matches
a row, 404 when it matches none, and 400 exactly when `parseInt` yields
`NaN`; an id with a numeric prefix (such as `"12abc"`) is treated as that
number.  The handler never answers 500. -/
theorem c8_getjob_contract :
    ∀ (s : ServerState) (idStr : String),
      (getJobHandler s idStr = GetJobResult.invalidId ↔
        jsParseInt idStr = none) ∧
      (∀ i : Int, jsParseInt idStr = some i →
        (s.jobs.find? (fun x => (x.id : Int) == i) = none →
          getJobHandler s idStr = GetJobResult.notFound) ∧
        (∀ j, s.jobs.find? (fun x => (x.id : Int) == i) = some j →
          getJobHandler s idStr = GetJobResult.found j)) ∧
      getJobStatus (getJobHandler s idStr) ≠ 500 := by
  intro s idStr
  refine ⟨⟨?_, ?_⟩, ?_, ?_⟩
  · intro h
    cases hp : jsParseInt idStr with
    | none => rfl
    | some i =>
      exfalso
      simp only [getJobHandler, hp] at h
      cases hf : s.jobs.find? (fun x => (x.id : Int) == i) with
      | none =>
        rw [hf] at h
        cases h
      | some j =>
        rw [hf] at h
        cases h
  · intro h
    simp only [getJobHandler, h]
  · intro i hp
    constructor
    · intro hf
      simp only [getJobHandler, hp, hf]
    · intro j hf
      simp only [getJobHandler, hp, hf]
  · cases hh : getJobHandler s idStr <;> simp [getJobStatus]

/-- Witness for the amended C8: a parseable id with no matching row. -/
theorem c8_getjob_contract_witness :
    getJobHandler initState "999999" = GetJobResult.notFound :=
  ((c8_getjob_contract initState "999999").2.1 999999 (by decide)).1 (by decide)

/-- C9: startup schema provisioning either aborts the process fatally or
proceeds with both diagnostic columns present, and any provisioning failure
leads to the fatal exit, never to a degraded run. -/
theorem c9_migration_allornothing :
    (∀ env : MigrationEnv,
      runMigration env = StartupOutcome.fatalExit 1 ∨
      ∃ cols', runMigration env = StartupOutcome.proceed cols' ∧
        "error" ∈ cols' ∧ "success" ∈ cols') ∧
    (∀ env : MigrationEnv,
      env.pragmaOk = false ∨
        ("error" ∉ env.cols ∧ env.alterErrorOk = false) ∨
        ("success" ∉ env.cols ∧ env.alterSuccessOk = false) →
      runMigration env = StartupOutcome.fatalExit 1) := by
  constructor
  · intro env
    by_cases hp : env.pragmaOk = true
    · by_cases he : "error" ∈ env.cols
      · by_cases hsu : "success" ∈ env.cols
        · refine Or.inr ⟨env.cols, ?_, he, hsu⟩
          simp [runMigration, hp, he, hsu]
        · by_cases ha2 : env.alterSuccessOk = true
          · refine Or.inr ⟨env.cols ++ ["success"], ?_, List.mem_append_left _ he,
              by simp⟩
            simp [runMigration, hp, he, hsu, ha2]
          · refine Or.inl ?_
            rw [Bool.not_eq_true] at ha2
            simp [runMigration, hp, he, hsu, ha2]
      · by_cases ha1 : env.alterErrorOk = true
        · by_cases hsu : "success" ∈ env.cols
          · refine Or.inr ⟨env.cols ++ ["error"], ?_, by simp,
              List.mem_append_left _ hsu⟩
            simp [runMigration, hp, he, ha1, hsu]
          · by_cases ha2 : env.alterSuccessOk = true
            · refine Or.inr ⟨env.cols ++ ["error"] ++ ["success"], ?_, ?_, by simp⟩
              · simp [runMigration, hp, he, ha1, hsu, ha2]
              · exact List.mem_append_left _ (by simp)
            · refine Or.inl ?_
              rw [Bool.not_eq_true] at ha2
              simp [runMigration, hp, he, ha1, hsu, ha2]
        · refine Or.inl ?_
          rw [Bool.not_eq_true] at ha1
          simp [runMigration, hp, he, ha1]
    · refine Or.inl ?_
      rw [Bool.not_eq_true] at hp
      simp [runMigration, hp]
  · intro env h
    rcases h with hp | ⟨he, ha⟩ | ⟨hsu, ha⟩
    · simp [runMigration, hp]
    · by_cases hp : env.pragmaOk = true
      · simp [runMigration, hp, he, ha]
      · rw [Bool.not_eq_true] at hp
        simp [runMigration, hp]
    · by_cases hp : env.pragmaOk = true
      · by_cases he : "error" ∈ env.cols
        · simp [runMigration, hp, he, hsu, ha]
        · by_cases ha1 : env.alterErrorOk = true
          · simp [runMigration, hp, he, ha1, hsu, ha]
          · rw [Bool.not_eq_true] at ha1
            simp [runMigration, hp, he, ha1]
      · rw [Bool.not_eq_true] at hp
        simp [runMigration, hp]

/-- Witness for C9: the `ALTER TABLE ... ADD COLUMN error` call fails. -/
theorem c9_migration_allornothing_witness :
    runMigration { cols := ["id"], pragmaOk := true, alterErrorOk := false,
                   alterSuccessOk := true } = StartupOutcome.fatalExit 1 :=
  c9_migration_allornothing.2
    { cols := ["id"], pragmaOk := true, alterErrorOk := false,
      alterSuccessOk := true }
    (Or.inr (Or.inl ⟨by decide, rfl⟩))

/-- C10: the enqueue endpoint accepts exactly the strings the URL
constructor parses as absolute URLs, with no restriction on the scheme
(`file:`, `data:`, `javascript:` URLs enqueue like `http(s)`), while a
missing or empty url is rejected. -/
theorem c10_scheme_agnostic :
    (∀ (s : ServerState) (t : Nat),
       (runPdf s none t).1 = s ∧ isBadRequest (runPdf s none t).2 = true) ∧
    (∀ (s : ServerState) (t : Nat) (url : String),
       (∃ jid, (runPdf s (some url) t).2 = RunPdfResult.ok jid) ↔
         parsesAsAbsoluteURL url = true) ∧
    isBadRequest (runPdf initState (some "") 0).2 = true ∧
    parsesAsAbsoluteURL "" = false ∧
    parsesAsAbsoluteURL "not a url" = false ∧
    parsesAsAbsoluteURL "https://example.com" = true ∧
    parsesAsAbsoluteURL "file:///tmp/report.pdf" = true ∧
    parsesAsAbsoluteURL "data:text/html,hello" = true ∧
    parsesAsAbsoluteURL "javascript:alert(1)" = true ∧
    (runPdf initState (some "javascript:alert(1)") 0).2 = RunPdfResult.ok 1 := by
  refine ⟨?_, ?_, by decide, by decide, by decide, by decide, by decide,
    by decide, by decide, by decide⟩
  · intro s t
    rw [runPdf_missing]
    exact ⟨rfl, rfl⟩
  · intro s t url
    constructor
    · rintro ⟨jid, hj⟩
      by_cases he : url = ""
      · subst he
        rw [runPdf_empty] at hj
        exact RunPdfResult.noConfusion hj
      · cases hp : parsesAsAbsoluteURL url with
        | true => rfl
        | false =>
          rw [runPdf_invalid s t he hp] at hj
          exact RunPdfResult.noConfusion hj
    · intro hp
      have he : url ≠ "" := by
        intro h'
        subst h'
        exact absurd hp (by decide)
      refine ⟨s.nextId, ?_⟩
      rw [runPdf_ok s t he hp]

/-- Witness for C10: the missing-url rejection at a concrete state. -/
theorem c10_scheme_agnostic_witness :
    (runPdf initState none 0).1 = initState ∧
    isBadRequest (runPdf initState none 0).2 = true :=
  c10_scheme_agnostic.1 initState 0

end PdfServer
